import Mathlib

/-!
# Verification of the chess move-legality engine (src/src/App.tsx)

Shallow embedding of the move-legality core of the chess application:
`isValidMove`, `isPathClear`, `getPossibleMoves` and `initialBoard`.
Coordinates are modelled as integers (JavaScript numbers used as array
indices); a board is a total function from coordinates to an optional
piece, with `none` standing for both the `null` entries of the 8×8 array
and out-of-range accesses (which the engine never performs when the
caller passes in-range coordinates, per the spec's caller contract).
-/

/-- Piece types, from `type PieceType` in App.tsx.  The TypeScript union
also admits `null`, but no piece stored on a board ever carries it (the
`default` switch branch is unreachable for these six tags). -/
inductive PieceType where
  | king | queen | rook | bishop | knight | pawn
deriving DecidableEq, Repr

/-- Piece colors, from `type PieceColor` in App.tsx. -/
inductive PieceColor where
  | white | black
deriving DecidableEq, Repr

/-- A piece is a (type, color) pair, from `interface Piece` in App.tsx. -/
structure Piece where
  type : PieceType
  color : PieceColor
deriving DecidableEq, Repr

/-- A board maps (row, column) to an optional piece, from
`type Board = (Piece | null)[][]` in App.tsx. -/
def Board : Type := Int → Int → Option Piece

/-- The all-empty board. -/
def emptyBoard : Board := fun _ _ => none

/-- Place piece `p` on square (r, c) of board `b` (all other squares
unchanged). -/
def setPiece (b : Board) (r c : Int) (p : Piece) : Board :=
  fun r2 c2 => if r2 = r ∧ c2 = c then some p else b r2 c2

open PieceType PieceColor

/-- The black/white back rank, columns 0..7, from `initialBoard` in
App.tsx (out-of-range columns read as empty). -/
def backRank (col : PieceColor) (c : Int) : Option Piece :=
  if c = 0 then some ⟨rook, col⟩
  else if c = 1 then some ⟨knight, col⟩
  else if c = 2 then some ⟨bishop, col⟩
  else if c = 3 then some ⟨queen, col⟩
  else if c = 4 then some ⟨king, col⟩
  else if c = 5 then some ⟨bishop, col⟩
  else if c = 6 then some ⟨knight, col⟩
  else if c = 7 then some ⟨rook, col⟩
  else none

/-- The standard initial position, from `const initialBoard` in App.tsx:
black back rank on row 0, black pawns on row 1, white pawns on row 6,
white back rank on row 7. -/
def initialBoard : Board := fun r c =>
  if r = 0 then backRank black c
  else if r = 1 then (if 0 ≤ c ∧ c < 8 then some ⟨pawn, black⟩ else none)
  else if r = 6 then (if 0 ≤ c ∧ c < 8 then some ⟨pawn, white⟩ else none)
  else if r = 7 then backRank white c
  else none

/-- The unit step `to > from ? 1 : to < from ? -1 : 0` computed by
`isPathClear` in App.tsx for each coordinate. -/
def stepOf (a b : Int) : Int := if b > a then 1 else if b < a then -1 else 0

/-- One step of the `while` loop of `isPathClear` in App.tsx, with a fuel
counter: the loop advances (curRow, curCol) by (rowStep, colStep) until it
reaches (toRow, toCol), returning false as soon as an occupied square is
met.  For the in-range line moves the engine feeds it, the loop runs at
most 7 iterations, so any fuel ≥ 7 reproduces the loop exactly. -/
def pathClearAux (b : Board) (toRow toCol rowStep colStep : Int) :
    Int → Int → Nat → Bool
  | _, _, 0 => true
  | curRow, curCol, fuel + 1 =>
    if curRow = toRow ∧ curCol = toCol then true
    else if (b curRow curCol).isSome then false
    else pathClearAux b toRow toCol rowStep colStep
      (curRow + rowStep) (curCol + colStep) fuel

/-- `isPathClear` from App.tsx: walk unit steps from just after the source
toward the destination; false iff some strictly-intermediate square is
occupied. -/
def isPathClear (b : Board) (fromRow fromCol toRow toCol : Int) : Bool :=
  let rowStep : Int := stepOf fromRow toRow
  let colStep : Int := stepOf fromCol toCol
  pathClearAux b toRow toCol rowStep colStep (fromRow + rowStep) (fromCol + colStep) 8

/-- `isValidMove` from App.tsx: per-piece geometric legality with
path-clearance for sliding pieces.  `rowDiff`/`colDiff` are
`Math.abs(toRow - fromRow)` / `Math.abs(toCol - fromCol)`. -/
def isValidMove (b : Board) (fromRow fromCol toRow toCol : Int) : Bool :=
  match b fromRow fromCol with
  | none => false
  | some piece =>
    let rowDiff : Nat := (toRow - fromRow).natAbs
    let colDiff : Nat := (toCol - fromCol).natAbs
    match piece.type with
    | pawn =>
      let direction : Int := if piece.color = white then -1 else 1
      let startRow : Int := if piece.color = white then 6 else 1
      if fromCol = toCol then
        if toRow = fromRow + direction ∧ (b toRow toCol).isNone then true
        else if fromRow = startRow ∧ toRow = fromRow + 2 * direction ∧
            (b toRow toCol).isNone then true
        else false
      else if colDiff = 1 ∧ toRow = fromRow + direction then
        match b toRow toCol with
        | some target => decide (target.color ≠ piece.color)
        | none => false
      else false
    | rook =>
      decide (rowDiff = 0 ∨ colDiff = 0) && isPathClear b fromRow fromCol toRow toCol
    | bishop =>
      decide (rowDiff = colDiff) && isPathClear b fromRow fromCol toRow toCol
    | queen =>
      decide (rowDiff = 0 ∨ colDiff = 0 ∨ rowDiff = colDiff) &&
        isPathClear b fromRow fromCol toRow toCol
    | knight =>
      decide ((rowDiff = 2 ∧ colDiff = 1) ∨ (rowDiff = 1 ∧ colDiff = 2))
    | king =>
      decide (rowDiff ≤ 1 ∧ colDiff ≤ 1)

/-- The 64 squares in row-major scan order (rows 0..7, columns 0..7
within each row), the iteration space of the nested `for` loops of
`getPossibleMoves` in App.tsx. -/
def allSquares : List (Int × Int) :=
  (List.range 8).flatMap fun r : Nat =>
    (List.range 8).map fun c : Nat => ((r : Int), (c : Int))

/-- `getPossibleMoves` from App.tsx: all squares (r, c) such that the
move is valid and the destination is empty or holds an opposite-color
piece.  The `none` branch for the source square mirrors the fact that
`board[row][col]!` is only dereferenced after `isValidMove` returned
true, which guarantees the source is occupied. -/
def getPossibleMoves (b : Board) (row col : Int) : List (Int × Int) :=
  allSquares.filter fun rc =>
    isValidMove b row col rc.1 rc.2 &&
      (match b rc.1 rc.2 with
       | none => true
       | some target =>
         match b row col with
         | some piece => decide (target.color ≠ piece.color)
         | none => true)

/-- A coordinate is on the 8×8 board. -/
def inRange (x : Int) : Prop := 0 ≤ x ∧ x < 8

/-- Spec-side line pattern of the sliding pieces, from the claim's words:
same row or same column for a rook, equal absolute row and column
differences for a bishop, either for a queen. -/
def linePattern (t : PieceType) (fromRow fromCol toRow toCol : Int) : Prop :=
  match t with
  | rook => fromRow = toRow ∨ fromCol = toCol
  | bishop => (toRow - fromRow).natAbs = (toCol - fromCol).natAbs
  | queen => fromRow = toRow ∨ fromCol = toCol ∨
      (toRow - fromRow).natAbs = (toCol - fromCol).natAbs
  | _ => False

/-- Spec-side list of the squares strictly between source and destination
along the straight or diagonal line of a move: the k-th (1-based)
unit-step position after the source, up to but excluding the
destination. -/
def betweenSquares (fromRow fromCol toRow toCol : Int) : List (Int × Int) :=
  let rowStep : Int := stepOf fromRow toRow
  let colStep : Int := stepOf fromCol toCol
  let d : Nat := max (toRow - fromRow).natAbs (toCol - fromCol).natAbs
  (List.range (d - 1)).map fun k : Nat =>
    (fromRow + ((k : Int) + 1) * rowStep, fromCol + ((k : Int) + 1) * colStep)

lemma stepOf_self (a : Int) : stepOf a a = 0 := by
  unfold stepOf
  simp

lemma sub_eq_natAbs_mul_stepOf (a b : Int) :
    b - a = ((b - a).natAbs : Int) * stepOf a b := by
  unfold stepOf
  rcases lt_trichotomy a b with h | h | h
  · rw [if_pos h, mul_one]
    omega
  · rw [if_neg (by omega), if_neg (by omega)]
    omega
  · rw [if_neg (by omega), if_pos h, mul_neg_one]
    omega

/-- Characterisation of the path-walking loop: starting `m` unit steps
away from the target (with a nonzero step unless already there), the loop
returns true iff every square it visits strictly before the target is
empty. -/
lemma pathClearAux_eq_all (b : Board) (rs cs : Int) :
    ∀ (m fuel : Nat) (curR curC : Int), m < fuel →
      (¬(rs = 0 ∧ cs = 0) ∨ m = 0) →
      pathClearAux b (curR + (m : Int) * rs) (curC + (m : Int) * cs) rs cs curR curC fuel =
        ((List.range m).all fun k => (b (curR + (k : Int) * rs) (curC + (k : Int) * cs)).isNone) := by
  intro m
  induction m with
  | zero =>
    intro fuel curR curC hfuel _
    cases fuel with
    | zero => omega
    | succ fuel => simp [pathClearAux]
  | succ m ih =>
    intro fuel curR curC hfuel hstep
    cases fuel with
    | zero => omega
    | succ fuel =>
      have hne : ¬(rs = 0 ∧ cs = 0) := by
        rcases hstep with h | h
        · exact h
        · omega
      have hcast : ((m + 1 : Nat) : Int) = (m : Int) + 1 := by push_cast; ring
      have hto : ¬(curR = curR + ((m + 1 : Nat) : Int) * rs ∧
          curC = curC + ((m + 1 : Nat) : Int) * cs) := by
        rintro ⟨h1, h2⟩
        have hm1 : ((m : Int) + 1) * rs = 0 := by rw [hcast] at h1; linarith
        have hm2 : ((m : Int) + 1) * cs = 0 := by rw [hcast] at h2; linarith
        have hmne : ((m : Int) + 1) ≠ 0 := by omega
        exact hne ⟨by rcases mul_eq_zero.mp hm1 with h | h; exact absurd h hmne; exact h,
          by rcases mul_eq_zero.mp hm2 with h | h; exact absurd h hmne; exact h⟩
      rw [pathClearAux, if_neg hto]
      rcases hocc : b curR curC with _ | piece
      · rw [if_neg (by simp [hocc])]
        have harith1 : curR + ((m + 1 : Nat) : Int) * rs = (curR + rs) + (m : Int) * rs := by
          rw [hcast]; ring
        have harith2 : curC + ((m + 1 : Nat) : Int) * cs = (curC + cs) + (m : Int) * cs := by
          rw [hcast]; ring
        rw [harith1, harith2, ih fuel (curR + rs) (curC + cs) (by omega) (Or.inl hne)]
        rw [List.range_succ_eq_map]
        simp only [List.all_cons, List.all_map, Function.comp]
        have hhead : (b (curR + ((0 : Nat) : Int) * rs) (curC + ((0 : Nat) : Int) * cs)).isNone = true := by
          simp [hocc]
        rw [hhead, Bool.true_and]
        congr 1
        funext k
        have e1 : curR + rs + (k : Int) * rs = curR + ((k.succ : Nat) : Int) * rs := by
          push_cast; ring
        have e2 : curC + cs + (k : Int) * cs = curC + ((k.succ : Nat) : Int) * cs := by
          push_cast; ring
        rw [e1, e2]
        rfl
      · rw [if_pos (by simp [hocc])]
        rw [List.range_succ_eq_map]
        simp [hocc]

lemma eq_of_stepOf_eq_zero {a b : Int} (h : stepOf a b = 0) : a = b := by
  unfold stepOf at h
  split_ifs at h <;> omega

lemma list_all_map {α β : Type} (l : List α) (f : α → β) (p : β → Bool) :
    (l.map f).all p = l.all fun x => p (f x) := by
  induction l with
  | nil => rfl
  | cons a l ih => simp [ih]

/-- On a line move (horizontal, vertical or diagonal) between squares at
distance at most 7, `isPathClear` returns true iff every strictly
intermediate square of the line is empty. -/
lemma isPathClear_eq_betweenEmpty (b : Board) (fr fc tr tc : Int)
    (hd : max (tr - fr).natAbs (tc - fc).natAbs ≤ 7)
    (hline : (tr - fr).natAbs = 0 ∨ (tc - fc).natAbs = 0 ∨
      (tr - fr).natAbs = (tc - fc).natAbs) :
    isPathClear b fr fc tr tc =
      (betweenSquares fr fc tr tc).all fun sq => (b sq.1 sq.2).isNone := by
  simp only [isPathClear, betweenSquares]
  have hr : tr = fr + ((max (tr - fr).natAbs (tc - fc).natAbs : Nat) : Int) * stepOf fr tr := by
    rcases hline with h | h | h
    · have heq : tr = fr := by omega
      subst heq
      rw [stepOf_self]
      ring
    · have hdm : (max (tr - fr).natAbs (tc - fc).natAbs : Nat) = (tr - fr).natAbs := by omega
      rw [hdm]
      have := sub_eq_natAbs_mul_stepOf fr tr
      linarith
    · have hdm : (max (tr - fr).natAbs (tc - fc).natAbs : Nat) = (tr - fr).natAbs := by omega
      rw [hdm]
      have := sub_eq_natAbs_mul_stepOf fr tr
      linarith
  have hc : tc = fc + ((max (tr - fr).natAbs (tc - fc).natAbs : Nat) : Int) * stepOf fc tc := by
    rcases hline with h | h | h
    · have hdm : (max (tr - fr).natAbs (tc - fc).natAbs : Nat) = (tc - fc).natAbs := by omega
      rw [hdm]
      have := sub_eq_natAbs_mul_stepOf fc tc
      linarith
    · have heq : tc = fc := by omega
      subst heq
      rw [stepOf_self]
      ring
    · have hdm : (max (tr - fr).natAbs (tc - fc).natAbs : Nat) = (tc - fc).natAbs := by omega
      rw [hdm]
      have := sub_eq_natAbs_mul_stepOf fc tc
      linarith
  have hstep : ¬(stepOf fr tr = 0 ∧ stepOf fc tc = 0) ∨
      (max (tr - fr).natAbs (tc - fc).natAbs : Nat) - 1 = 0 := by
    by_cases h1 : (max (tr - fr).natAbs (tc - fc).natAbs : Nat) ≤ 1
    · exact Or.inr (by omega)
    · refine Or.inl ?_
      rintro ⟨h2, h3⟩
      have e1 := eq_of_stepOf_eq_zero h2
      have e2 := eq_of_stepOf_eq_zero h3
      omega
  have happly := pathClearAux_eq_all b (stepOf fr tr) (stepOf fc tc)
    ((max (tr - fr).natAbs (tc - fc).natAbs : Nat) - 1) 8
    (fr + stepOf fr tr) (fc + stepOf fc tc) (by omega) hstep
  have htr2 : (fr + stepOf fr tr) +
      (((max (tr - fr).natAbs (tc - fc).natAbs : Nat) - 1 : Nat) : Int) * stepOf fr tr = tr := by
    by_cases h1 : (max (tr - fr).natAbs (tc - fc).natAbs : Nat) = 0
    · have heq : tr = fr := by omega
      subst heq
      rw [stepOf_self]
      ring
    · have hcast : (((max (tr - fr).natAbs (tc - fc).natAbs : Nat) - 1 : Nat) : Int) =
          ((max (tr - fr).natAbs (tc - fc).natAbs : Nat) : Int) - 1 := by omega
      rw [hcast]
      conv_rhs => rw [hr]
      ring
  have htc2 : (fc + stepOf fc tc) +
      (((max (tr - fr).natAbs (tc - fc).natAbs : Nat) - 1 : Nat) : Int) * stepOf fc tc = tc := by
    by_cases h1 : (max (tr - fr).natAbs (tc - fc).natAbs : Nat) = 0
    · have heq : tc = fc := by omega
      subst heq
      rw [stepOf_self]
      ring
    · have hcast : (((max (tr - fr).natAbs (tc - fc).natAbs : Nat) - 1 : Nat) : Int) =
          ((max (tr - fr).natAbs (tc - fc).natAbs : Nat) : Int) - 1 := by omega
      rw [hcast]
      conv_rhs => rw [hc]
      ring
  rw [htr2, htc2] at happly
  rw [happly, list_all_map]
  congr 1
  funext k
  have e1 : fr + stepOf fr tr + (k : Int) * stepOf fr tr =
      fr + ((k : Int) + 1) * stepOf fr tr := by ring
  have e2 : fc + stepOf fc tc + (k : Int) * stepOf fc tc =
      fc + ((k : Int) + 1) * stepOf fc tc := by ring
  rw [e1, e2]

lemma betweenEmpty_iff (b : Board) (fr fc tr tc : Int) :
    ((betweenSquares fr fc tr tc).all fun sq => (b sq.1 sq.2).isNone) = true ↔
      ∀ sq ∈ betweenSquares fr fc tr tc, b sq.1 sq.2 = none := by
  rw [List.all_eq_true]
  constructor
  · intro h sq hsq
    exact Option.isNone_iff_eq_none.mp (h sq hsq)
  · intro h sq hsq
    exact Option.isNone_iff_eq_none.mpr (h sq hsq)

/-- For a rook, bishop or queen on the source square (at distance at most
7), `isValidMove` is true iff the spec's line pattern holds and every
strictly intermediate square of the line is empty. -/
lemma isValidMove_slider_iff (b : Board) (fr fc tr tc : Int) (p : Piece)
    (hp : b fr fc = some p)
    (ht : p.type = rook ∨ p.type = bishop ∨ p.type = queen)
    (hd : max (tr - fr).natAbs (tc - fc).natAbs ≤ 7) :
    isValidMove b fr fc tr tc = true ↔
      linePattern p.type fr fc tr tc ∧
        ∀ sq ∈ betweenSquares fr fc tr tc, b sq.1 sq.2 = none := by
  rcases ht with h | h | h
  · simp only [isValidMove, hp, h, linePattern, Bool.and_eq_true, decide_eq_true_eq]
    constructor
    · rintro ⟨hpat, hclear⟩
      have hline : (tr - fr).natAbs = 0 ∨ (tc - fc).natAbs = 0 ∨
          (tr - fr).natAbs = (tc - fc).natAbs := by omega
      rw [isPathClear_eq_betweenEmpty b fr fc tr tc hd hline, betweenEmpty_iff] at hclear
      exact ⟨by omega, hclear⟩
    · rintro ⟨hpat, hempty⟩
      have hline : (tr - fr).natAbs = 0 ∨ (tc - fc).natAbs = 0 ∨
          (tr - fr).natAbs = (tc - fc).natAbs := by omega
      refine ⟨by omega, ?_⟩
      rw [isPathClear_eq_betweenEmpty b fr fc tr tc hd hline, betweenEmpty_iff]
      exact hempty
  · simp only [isValidMove, hp, h, linePattern, Bool.and_eq_true, decide_eq_true_eq]
    constructor
    · rintro ⟨hpat, hclear⟩
      have hline : (tr - fr).natAbs = 0 ∨ (tc - fc).natAbs = 0 ∨
          (tr - fr).natAbs = (tc - fc).natAbs := by omega
      rw [isPathClear_eq_betweenEmpty b fr fc tr tc hd hline, betweenEmpty_iff] at hclear
      exact ⟨hpat, hclear⟩
    · rintro ⟨hpat, hempty⟩
      have hline : (tr - fr).natAbs = 0 ∨ (tc - fc).natAbs = 0 ∨
          (tr - fr).natAbs = (tc - fc).natAbs := by omega
      refine ⟨hpat, ?_⟩
      rw [isPathClear_eq_betweenEmpty b fr fc tr tc hd hline, betweenEmpty_iff]
      exact hempty
  · simp only [isValidMove, hp, h, linePattern, Bool.and_eq_true, decide_eq_true_eq]
    constructor
    · rintro ⟨hpat, hclear⟩
      have hline : (tr - fr).natAbs = 0 ∨ (tc - fc).natAbs = 0 ∨
          (tr - fr).natAbs = (tc - fc).natAbs := by omega
      rw [isPathClear_eq_betweenEmpty b fr fc tr tc hd hline, betweenEmpty_iff] at hclear
      exact ⟨by omega, hclear⟩
    · rintro ⟨hpat, hempty⟩
      have hline : (tr - fr).natAbs = 0 ∨ (tc - fc).natAbs = 0 ∨
          (tr - fr).natAbs = (tc - fc).natAbs := by omega
      refine ⟨by omega, ?_⟩
      rw [isPathClear_eq_betweenEmpty b fr fc tr tc hd hline, betweenEmpty_iff]
      exact hempty

/-- The source square never lies strictly between source and
destination. -/
lemma src_not_mem_betweenSquares (fr fc tr tc : Int) :
    (fr, fc) ∉ betweenSquares fr fc tr tc := by
  intro hmem
  simp only [betweenSquares, List.mem_map, List.mem_range] at hmem
  obtain ⟨k, hk, heq⟩ := hmem
  rw [Prod.mk.injEq] at heq
  obtain ⟨h1, h2⟩ := heq
  have hk1 : ((k : Int) + 1) ≠ 0 := by omega
  have hrs : stepOf fr tr = 0 := by
    rcases mul_eq_zero.mp (by linarith : ((k : Int) + 1) * stepOf fr tr = 0) with h | h
    · exact absurd h hk1
    · exact h
  have hcs : stepOf fc tc = 0 := by
    rcases mul_eq_zero.mp (by linarith : ((k : Int) + 1) * stepOf fc tc = 0) with h | h
    · exact absurd h hk1
    · exact h
  have e1 := eq_of_stepOf_eq_zero hrs
  have e2 := eq_of_stepOf_eq_zero hcs
  subst e1
  subst e2
  simp at hk

/-- C1: for every board and every rook, bishop or queen on the (in-range)
source square, `isValidMove` returns true iff the move fits the piece's
line pattern (same row or column for a rook, equal absolute row and
column differences for a bishop, either for a queen) and every square
strictly between source and destination along that line is empty;
moreover, placing any piece on an intermediate square of an
otherwise-legal such move flips the result to false. -/
theorem slider_legal_iff_line_clear_and_blocker_flips
    (b : Board) (fr fc tr tc : Int) (p : Piece)
    (hfr : inRange fr) (hfc : inRange fc) (htr : inRange tr) (htc : inRange tc)
    (hp : b fr fc = some p)
    (ht : p.type = rook ∨ p.type = bishop ∨ p.type = queen) :
    (isValidMove b fr fc tr tc = true ↔
      linePattern p.type fr fc tr tc ∧
        ∀ sq ∈ betweenSquares fr fc tr tc, b sq.1 sq.2 = none) ∧
    ∀ sq ∈ betweenSquares fr fc tr tc, ∀ q : Piece,
      isValidMove b fr fc tr tc = true →
      isValidMove (setPiece b sq.1 sq.2 q) fr fc tr tc = false := by
  obtain ⟨hfr1, hfr2⟩ := hfr
  obtain ⟨hfc1, hfc2⟩ := hfc
  obtain ⟨htr1, htr2⟩ := htr
  obtain ⟨htc1, htc2⟩ := htc
  have hd : max (tr - fr).natAbs (tc - fc).natAbs ≤ 7 := by omega
  refine ⟨isValidMove_slider_iff b fr fc tr tc p hp ht hd, ?_⟩
  intro sq hsq q _hvalid
  have hne : ¬(fr = sq.1 ∧ fc = sq.2) := by
    rintro ⟨h1, h2⟩
    apply src_not_mem_betweenSquares fr fc tr tc
    have hsq2 : sq = (fr, fc) := by
      obtain ⟨s1, s2⟩ := sq
      simp only [Prod.mk.injEq]
      exact ⟨h1.symm, h2.symm⟩
    rwa [hsq2] at hsq
  have hp2 : setPiece b sq.1 sq.2 q fr fc = some p := by
    unfold setPiece
    rw [if_neg hne]
    exact hp
  have hiff2 := isValidMove_slider_iff (setPiece b sq.1 sq.2 q) fr fc tr tc p hp2 ht hd
  rw [Bool.eq_false_iff]
  intro hvalid2
  obtain ⟨-, hempty⟩ := hiff2.mp hvalid2
  have hcontra := hempty sq hsq
  unfold setPiece at hcontra
  rw [if_pos ⟨rfl, rfl⟩] at hcontra
  exact Option.some_ne_none q hcontra

/-- Witness for C1: a white rook at (3,3) moving to (3,6) on an otherwise
empty board. -/
theorem slider_legal_iff_line_clear_and_blocker_flips_witness :
    inRange 3 ∧ inRange 6 ∧
    (setPiece emptyBoard 3 3 ⟨rook, white⟩) 3 3 = some ⟨rook, white⟩ ∧
    ((Piece.mk rook white).type = rook ∨ (Piece.mk rook white).type = bishop ∨
      (Piece.mk rook white).type = queen) ∧
    ((isValidMove (setPiece emptyBoard 3 3 ⟨rook, white⟩) 3 3 3 6 = true ↔
      linePattern (Piece.mk rook white).type 3 3 3 6 ∧
        ∀ sq ∈ betweenSquares 3 3 3 6,
          (setPiece emptyBoard 3 3 ⟨rook, white⟩) sq.1 sq.2 = none) ∧
    ∀ sq ∈ betweenSquares 3 3 3 6, ∀ q : Piece,
      isValidMove (setPiece emptyBoard 3 3 ⟨rook, white⟩) 3 3 3 6 = true →
      isValidMove (setPiece (setPiece emptyBoard 3 3 ⟨rook, white⟩) sq.1 sq.2 q) 3 3 3 6 =
        false) :=
  ⟨⟨by decide, by decide⟩, ⟨by decide, by decide⟩, by decide, Or.inl rfl,
    slider_legal_iff_line_clear_and_blocker_flips
      (setPiece emptyBoard 3 3 ⟨rook, white⟩) 3 3 3 6 ⟨rook, white⟩
      ⟨by decide, by decide⟩ ⟨by decide, by decide⟩ ⟨by decide, by decide⟩
      ⟨by decide, by decide⟩ (by decide) (Or.inl rfl)⟩

/-- Pawn move direction, `piece.color === 'white' ? -1 : 1` in App.tsx. -/
def pawnDir (c : PieceColor) : Int := if c = white then -1 else 1

/-- Pawn start row, `piece.color === 'white' ? 6 : 1` in App.tsx. -/
def pawnStartRow (c : PieceColor) : Int := if c = white then 6 else 1

/-- C2: a pawn on its start row may advance two steps straight ahead
whenever the destination square is empty; the board is otherwise
arbitrary, so in particular the intermediate square one step ahead may be
occupied. -/
theorem pawn_double_step_ignores_intermediate
    (b : Board) (fr fc tr : Int) (p : Piece)
    (hp : b fr fc = some p) (htype : p.type = pawn)
    (hstart : fr = pawnStartRow p.color)
    (htr : tr = fr + 2 * pawnDir p.color)
    (hdest : b tr fc = none) :
    isValidMove b fr fc tr fc = true := by
  rcases hc : p.color with _ | _
  · rw [hc] at hstart htr
    simp only [pawnStartRow, if_pos] at hstart
    simp only [pawnDir, if_pos] at htr
    subst hstart
    subst htr
    norm_num at hdest
    simp [isValidMove, hp, htype, hc, hdest]
  · rw [hc] at hstart htr
    simp [pawnStartRow] at hstart
    simp [pawnDir] at htr
    subst hstart
    subst htr
    norm_num at hdest
    simp [isValidMove, hp, htype, hc, hdest]

/-- Witness for C2: a white pawn at (6,4) jumping to (4,4) over a black
knight standing on the intermediate square (5,4). -/
theorem pawn_double_step_ignores_intermediate_witness :
    (setPiece (setPiece emptyBoard 6 4 ⟨pawn, white⟩) 5 4 ⟨knight, black⟩) 6 4 =
      some ⟨pawn, white⟩ ∧
    (Piece.mk pawn white).type = pawn ∧
    (6 : Int) = pawnStartRow (Piece.mk pawn white).color ∧
    (4 : Int) = 6 + 2 * pawnDir (Piece.mk pawn white).color ∧
    (setPiece (setPiece emptyBoard 6 4 ⟨pawn, white⟩) 5 4 ⟨knight, black⟩) 4 4 = none ∧
    (setPiece (setPiece emptyBoard 6 4 ⟨pawn, white⟩) 5 4 ⟨knight, black⟩) 5 4 =
      some ⟨knight, black⟩ ∧
    isValidMove (setPiece (setPiece emptyBoard 6 4 ⟨pawn, white⟩) 5 4 ⟨knight, black⟩)
      6 4 4 4 = true :=
  ⟨by decide, rfl, by decide, by decide, by decide, by decide,
    pawn_double_step_ignores_intermediate
      (setPiece (setPiece emptyBoard 6 4 ⟨pawn, white⟩) 5 4 ⟨knight, black⟩)
      6 4 4 ⟨pawn, white⟩ (by decide) rfl (by decide) (by decide) (by decide)⟩

/-- C4: a pawn's diagonal move (column differs by exactly 1, destination
one step in the pawn's direction) is legal iff the destination holds a
piece of the opposite color. -/
theorem pawn_diagonal_iff_opposite_capture
    (b : Board) (fr fc tr tc : Int) (p : Piece)
    (hp : b fr fc = some p) (htype : p.type = pawn)
    (hcol : (tc - fc).natAbs = 1)
    (htr : tr = fr + pawnDir p.color) :
    isValidMove b fr fc tr tc = true ↔
      ∃ q : Piece, b tr tc = some q ∧ q.color ≠ p.color := by
  unfold pawnDir at htr
  simp only [isValidMove, hp, htype]
  have hccne : ¬(fc = tc) := by omega
  rw [if_neg hccne, if_pos ⟨hcol, htr⟩]
  rcases hbt : b tr tc with _ | q
  · simp
  · simp [decide_eq_true_eq]

/-- Witness for C4: a white pawn at (6,4) capturing a black knight on
(5,5). -/
theorem pawn_diagonal_iff_opposite_capture_witness :
    (setPiece (setPiece emptyBoard 6 4 ⟨pawn, white⟩) 5 5 ⟨knight, black⟩) 6 4 =
      some ⟨pawn, white⟩ ∧
    (Piece.mk pawn white).type = pawn ∧
    ((5 : Int) - 4).natAbs = 1 ∧
    (5 : Int) = 6 + pawnDir (Piece.mk pawn white).color ∧
    (isValidMove (setPiece (setPiece emptyBoard 6 4 ⟨pawn, white⟩) 5 5 ⟨knight, black⟩)
        6 4 5 5 = true ↔
      ∃ q : Piece,
        (setPiece (setPiece emptyBoard 6 4 ⟨pawn, white⟩) 5 5 ⟨knight, black⟩) 5 5 = some q ∧
          q.color ≠ (Piece.mk pawn white).color) :=
  ⟨by decide, rfl, by decide, by decide,
    pawn_diagonal_iff_opposite_capture
      (setPiece (setPiece emptyBoard 6 4 ⟨pawn, white⟩) 5 5 ⟨knight, black⟩)
      6 4 5 5 ⟨pawn, white⟩ (by decide) rfl (by decide) (by decide)⟩

/-- C5: `isValidMove` on an empty source square returns false, for every
board and every pair of squares. -/
theorem isValidMove_empty_source_false (b : Board) (fr fc tr tc : Int)
    (h : b fr fc = none) : isValidMove b fr fc tr tc = false := by
  simp only [isValidMove, h]

/-- Witness for C5: the empty board with source (3,3). -/
theorem isValidMove_empty_source_false_witness :
    emptyBoard 3 3 = none ∧ isValidMove emptyBoard 3 3 4 4 = false :=
  ⟨rfl, isValidMove_empty_source_false emptyBoard 3 3 4 4 rfl⟩

/-- C6: with a knight on the source square, `isValidMove` is true exactly
when the absolute row and column differences are (2,1) or (1,2),
independent of every other square of the board. -/
theorem knight_legal_iff_L_shape (b : Board) (fr fc tr tc : Int) (p : Piece)
    (hp : b fr fc = some p) (htype : p.type = knight) :
    isValidMove b fr fc tr tc = true ↔
      ((tr - fr).natAbs = 2 ∧ (tc - fc).natAbs = 1) ∨
      ((tr - fr).natAbs = 1 ∧ (tc - fc).natAbs = 2) := by
  simp only [isValidMove, hp, htype, decide_eq_true_eq]

/-- Witness for C6: a white knight at (7,1) moving to (5,2) on the
initial board. -/
theorem knight_legal_iff_L_shape_witness :
    initialBoard 7 1 = some ⟨knight, white⟩ ∧
    (Piece.mk knight white).type = knight ∧
    (isValidMove initialBoard 7 1 5 2 = true ↔
      (((5 : Int) - 7).natAbs = 2 ∧ ((2 : Int) - 1).natAbs = 1) ∨
      (((5 : Int) - 7).natAbs = 1 ∧ ((2 : Int) - 1).natAbs = 2)) :=
  ⟨by decide, rfl,
    knight_legal_iff_L_shape initialBoard 7 1 5 2 ⟨knight, white⟩ (by decide) rfl⟩

/-- C9: with a king on the source square, the zero-displacement move
(source equals destination) is reported legal by `isValidMove`. -/
theorem king_zero_displacement_legal (b : Board) (fr fc : Int) (p : Piece)
    (hp : b fr fc = some p) (htype : p.type = king) :
    isValidMove b fr fc fr fc = true := by
  simp [isValidMove, hp, htype]

/-- Witness for C9: the black king at (0,4) on the initial board. -/
theorem king_zero_displacement_legal_witness :
    initialBoard 0 4 = some ⟨king, black⟩ ∧
    isValidMove initialBoard 0 4 0 4 = true :=
  ⟨by decide,
    king_zero_displacement_legal initialBoard 0 4 ⟨king, black⟩ (by decide) rfl⟩

/-- C3: `getPossibleMoves` never returns a square occupied by a piece of
the same color as the piece on the source square. -/
theorem possibleMoves_no_same_color (b : Board) (row col r c : Int) (p q : Piece)
    (hp : b row col = some p)
    (hmem : (r, c) ∈ getPossibleMoves b row col)
    (hq : b r c = some q) :
    q.color ≠ p.color := by
  simp only [getPossibleMoves, List.mem_filter, Bool.and_eq_true] at hmem
  obtain ⟨-, -, hcolor⟩ := hmem
  simp only [hq, hp] at hcolor
  exact of_decide_eq_true hcolor

/-- Witness for C3: a white rook at (3,3) whose move list contains the
square (3,5) holding a black pawn; the colors indeed differ. -/
theorem possibleMoves_no_same_color_witness :
    (setPiece (setPiece emptyBoard 3 3 ⟨rook, white⟩) 3 5 ⟨pawn, black⟩) 3 3 =
      some ⟨rook, white⟩ ∧
    ((3 : Int), (5 : Int)) ∈
      getPossibleMoves (setPiece (setPiece emptyBoard 3 3 ⟨rook, white⟩) 3 5 ⟨pawn, black⟩)
        3 3 ∧
    (setPiece (setPiece emptyBoard 3 3 ⟨rook, white⟩) 3 5 ⟨pawn, black⟩) 3 5 =
      some ⟨pawn, black⟩ ∧
    (Piece.mk pawn black).color ≠ (Piece.mk rook white).color :=
  ⟨by decide, by decide, by decide,
    possibleMoves_no_same_color
      (setPiece (setPiece emptyBoard 3 3 ⟨rook, white⟩) 3 5 ⟨pawn, black⟩)
      3 3 3 5 ⟨rook, white⟩ ⟨pawn, black⟩ (by decide) (by decide) (by decide)⟩

/-- C10: for every occupied source square, `getPossibleMoves` never
contains the source square itself: it is removed by the same-color
filter even when `isValidMove` accepts the zero-displacement move. -/
theorem src_not_in_possibleMoves (b : Board) (row col : Int) (p : Piece)
    (hp : b row col = some p) :
    (row, col) ∉ getPossibleMoves b row col := by
  intro hmem
  simp only [getPossibleMoves, List.mem_filter, Bool.and_eq_true] at hmem
  obtain ⟨-, -, hcolor⟩ := hmem
  simp only [hp] at hcolor
  exact absurd (of_decide_eq_true hcolor) (by simp)

/-- Witness for C10: the white rook at (3,3) on an otherwise empty board;
`isValidMove` alone accepts (3,3) → (3,3), yet the square is not among
the possible moves. -/
theorem src_not_in_possibleMoves_witness :
    (setPiece emptyBoard 3 3 ⟨rook, white⟩) 3 3 = some ⟨rook, white⟩ ∧
    isValidMove (setPiece emptyBoard 3 3 ⟨rook, white⟩) 3 3 3 3 = true ∧
    ((3 : Int), (3 : Int)) ∉
      getPossibleMoves (setPiece emptyBoard 3 3 ⟨rook, white⟩) 3 3 :=
  ⟨by decide, by decide,
    src_not_in_possibleMoves (setPiece emptyBoard 3 3 ⟨rook, white⟩) 3 3
      ⟨rook, white⟩ (by decide)⟩

lemma mem_allSquares_iff (r c : Int) :
    (r, c) ∈ allSquares ↔ 0 ≤ r ∧ r < 8 ∧ 0 ≤ c ∧ c < 8 := by
  simp only [allSquares, List.mem_flatMap, List.mem_map, List.mem_range]
  constructor
  · rintro ⟨rn, hrn, cn, hcn, heq⟩
    rw [Prod.mk.injEq] at heq
    obtain ⟨h1, h2⟩ := heq
    omega
  · rintro ⟨h1, h2, h3, h4⟩
    refine ⟨r.toNat, by omega, c.toNat, by omega, ?_⟩
    rw [Prod.mk.injEq]
    constructor <;> omega

lemma inRange_mem_list {x : Int} (h : inRange x) :
    x ∈ [(0 : Int), 1, 2, 3, 4, 5, 6, 7] := by
  obtain ⟨h1, h2⟩ := h
  have hx : x = 0 ∨ x = 1 ∨ x = 2 ∨ x = 3 ∨ x = 4 ∨ x = 5 ∨ x = 6 ∨ x = 7 := by omega
  rcases hx with h | h | h | h | h | h | h | h <;> subst h <;> simp

/-- C7: for a king on an otherwise empty board, `getPossibleMoves`
returns exactly the in-range squares whose row and column each differ
from the source by at most 1, excluding the source square itself; the
number of such squares is between 3 and 8 depending on position. -/
theorem king_empty_board_exactly_adjacent (r0 c0 : Int) (col : PieceColor)
    (h0 : inRange r0) (h1 : inRange c0) :
    (∀ r c : Int,
      (r, c) ∈ getPossibleMoves (setPiece emptyBoard r0 c0 ⟨king, col⟩) r0 c0 ↔
        inRange r ∧ inRange c ∧ (r - r0).natAbs ≤ 1 ∧ (c - c0).natAbs ≤ 1 ∧
          ¬(r = r0 ∧ c = c0)) ∧
    3 ≤ (getPossibleMoves (setPiece emptyBoard r0 c0 ⟨king, col⟩) r0 c0).length ∧
    (getPossibleMoves (setPiece emptyBoard r0 c0 ⟨king, col⟩) r0 c0).length ≤ 8 := by
  refine ⟨?_, ?_⟩
  · intro r c
    have hb0 : setPiece emptyBoard r0 c0 ⟨king, col⟩ r0 c0 = some ⟨king, col⟩ := by
      unfold setPiece
      rw [if_pos ⟨rfl, rfl⟩]
    rw [getPossibleMoves, List.mem_filter, mem_allSquares_iff]
    by_cases hrc : r = r0 ∧ c = c0
    · obtain ⟨hr, hc⟩ := hrc
      subst hr
      subst hc
      simp only [hb0, isValidMove]
      simp [inRange]
    · have hbt : setPiece emptyBoard r0 c0 ⟨king, col⟩ r c = none := by
        unfold setPiece
        rw [if_neg hrc]
        rfl
      simp only [hbt, isValidMove, hb0, Bool.and_eq_true, decide_eq_true_eq]
      unfold inRange
      constructor
      · rintro ⟨hin, ⟨hadj, -⟩⟩
        exact ⟨⟨by omega, by omega⟩, ⟨by omega, by omega⟩, hadj.1, hadj.2, hrc⟩
      · rintro ⟨⟨a1, a2⟩, ⟨a3, a4⟩, a5, a6, -⟩
        exact ⟨by omega, ⟨a5, a6⟩, trivial⟩
  · have hall : ∀ a ∈ [(0 : Int), 1, 2, 3, 4, 5, 6, 7],
        ∀ d ∈ [(0 : Int), 1, 2, 3, 4, 5, 6, 7], ∀ cl ∈ [white, black],
        3 ≤ (getPossibleMoves (setPiece emptyBoard a d ⟨king, cl⟩) a d).length ∧
        (getPossibleMoves (setPiece emptyBoard a d ⟨king, cl⟩) a d).length ≤ 8 := by
      decide
    exact hall r0 (inRange_mem_list h0) c0 (inRange_mem_list h1) col
      (by cases col <;> simp)

/-- Witness for C7: a white king in the corner (0,0) of an empty board. -/
theorem king_empty_board_exactly_adjacent_witness :
    inRange 0 ∧
    ((∀ r c : Int,
      (r, c) ∈ getPossibleMoves (setPiece emptyBoard 0 0 ⟨king, white⟩) 0 0 ↔
        inRange r ∧ inRange c ∧ (r - 0).natAbs ≤ 1 ∧ (c - 0).natAbs ≤ 1 ∧
          ¬(r = 0 ∧ c = 0)) ∧
    3 ≤ (getPossibleMoves (setPiece emptyBoard 0 0 ⟨king, white⟩) 0 0).length ∧
    (getPossibleMoves (setPiece emptyBoard 0 0 ⟨king, white⟩) 0 0).length ≤ 8) :=
  ⟨⟨by decide, by decide⟩,
    king_empty_board_exactly_adjacent 0 0 white ⟨by decide, by decide⟩
      ⟨by decide, by decide⟩⟩

/-- C8: on the standard initial board, the white pawn at (6,4) has
exactly the destinations (5,4) and (4,4) (here listed in row-major scan
order), the white knight at (7,1) exactly (5,0) and (5,2), and the black
rook at (0,0) none at all. -/
theorem initialBoard_sample_destinations :
    initialBoard 6 4 = some ⟨pawn, white⟩ ∧
    getPossibleMoves initialBoard 6 4 = [(4, 4), (5, 4)] ∧
    initialBoard 7 1 = some ⟨knight, white⟩ ∧
    getPossibleMoves initialBoard 7 1 = [(5, 0), (5, 2)] ∧
    initialBoard 0 0 = some ⟨rook, black⟩ ∧
    getPossibleMoves initialBoard 0 0 = [] := by
  refine ⟨by decide, by decide, by decide, by decide, by decide, by decide⟩
